import Mathlib

set_option maxRecDepth 8000

/-
Verification of BaiduPCS-Py core claims against a shallow embedding of
`baidupcs_py/common/simple_cipher.pyx` and, where the relevant module is
not part of the provided sources, of the specified behaviour of the
fingerprint codec, the encryption-envelope decoder and the sync differ.

Bytes are modelled as natural numbers below 256, byte strings as
`List Nat`.
-/

namespace SimpleCipher

/-- A byte string is valid when every element is an actual byte value. -/
def ValidBytes (data : List Nat) : Prop := ∀ b ∈ data, b < 256

instance (data : List Nat) : Decidable (ValidBytes data) := by
  unfold ValidBytes; infer_instance

/-- Embedding of the cython `crypt` routine: each byte `c` of `data` is
replaced by `byte_map[c]`.  The C loop writes `data[i] = byte_map[data[i]]`
for every `i < len_` with `len_ = len(data)`; since step `i` reads and
writes only index `i`, the loop is the per-byte map below. -/
def crypt (byteMap : List Nat) (data : List Nat) : List Nat :=
  data.map (fun c => byteMap.getD c 0)

/-- The C loop of `crypt` itself, index by index: after `n` steps the first
`n` cells have been overwritten in place. -/
def cryptIter (byteMap : List Nat) (data : List Nat) : Nat → List Nat
  | 0 => data
  | n + 1 =>
    let d := cryptIter byteMap data n
    d.set n (byteMap.getD (d.getD n 0) 0)

/-- In-place form of `crypt`: run the loop over the whole buffer. -/
def cryptInPlace (byteMap : List Nat) (data : List Nat) : List Nat :=
  cryptIter byteMap data data.length

/-- `list[i], list[j] = list[j], list[i]`, as performed by `random.shuffle`. -/
def swap (l : List Nat) (i j : Nat) : List Nat :=
  (l.set i (l.getD j 0)).set j (l.getD i 0)

/-- Embedding of CPython's `random.shuffle` loop
`for i in reversed(range(1, len(x))): j = _randbelow(i+1); swap x i j`.
The Mersenne-Twister stream seeded from the key is abstracted as `r`:
`r i % (i+1+1)` stands for `_randbelow(i+1)` at loop index `i+1`, which is
some value in `[0, i+2)` determined by the seed alone. -/
def shuffleAux (r : Nat → Nat) : Nat → List Nat → List Nat
  | 0, l => l
  | i + 1, l => shuffleAux r i (swap l (i + 1) (r (i + 1) % (i + 2)))

/-- `rg.shuffle(x)` for a generator seeded deterministically from the key. -/
def pyShuffle (r : Nat → Nat) (l : List Nat) : List Nat :=
  shuffleAux r (l.length - 1) l

/-- `_byte_map = list(range(1 << 8)); rg.shuffle(_byte_map)`:
the encryption table of `SimpleCryptography.__init__`. -/
def encryptByteMap (r : Nat → Nat) : List Nat :=
  pyShuffle r (List.range 256)

/-- Comparison used to embed Python's `sorted` on the pairs
`zip(_byte_map, range(1 << 8))`: tuples compare lexicographically, and the
first components are pairwise distinct here, so ordering by the first
component alone is exact. -/
def pairLe (p q : Nat × Nat) : Prop := p.1 ≤ q.1

instance : DecidableRel pairLe := fun p q => by
  unfold pairLe; infer_instance

instance : IsTotal (Nat × Nat) pairLe :=
  ⟨fun p q => Nat.le_total p.1 q.1⟩

instance : IsTrans (Nat × Nat) pairLe :=
  ⟨fun _ _ _ h1 h2 => Nat.le_trans h1 h2⟩

/-- `bytes(bytearray([c for _, c in sorted(zip(_byte_map, range(1 << 8)))]))`:
the decryption table of `SimpleCryptography.__init__`.  Python's sort is
replaced by insertion sort, which agrees with it because the sort keys are
pairwise distinct. -/
def decryptByteMapOf (bm : List Nat) : List Nat :=
  (List.insertionSort pairLe (bm.zip (List.range 256))).map Prod.snd

/-- The decryption table derived from the key stream `r`. -/
def decryptByteMap (r : Nat → Nat) : List Nat :=
  decryptByteMapOf (encryptByteMap r)

/-- State of a `SimpleCryptography` object after `__init__`. -/
structure SimpleCryptography where
  encrypt_byte_map : List Nat
  decrypt_byte_map : List Nat
  key : Nat → Nat

/-- `SimpleCryptography.__init__(key)`, with the seeded generator `r`. -/
def SimpleCryptography.mk' (r : Nat → Nat) : SimpleCryptography :=
  { encrypt_byte_map := encryptByteMap r
    decrypt_byte_map := decryptByteMap r
    key := r }

/-- `SimpleCryptography.encrypt`: copy the input, substitute every byte
through the encryption table, return the copy.  The object is returned as
well to make explicit that the method leaves it untouched. -/
def SimpleCryptography.encrypt (s : SimpleCryptography) (data : List Nat) :
    List Nat × SimpleCryptography :=
  (crypt s.encrypt_byte_map data, s)

/-- `SimpleCryptography.decrypt`: same shape with the decryption table. -/
def SimpleCryptography.decrypt (s : SimpleCryptography) (data : List Nat) :
    List Nat × SimpleCryptography :=
  (crypt s.decrypt_byte_map data, s)

/-- `SimpleCryptography.reset` is `pass`. -/
def SimpleCryptography.reset (s : SimpleCryptography) : SimpleCryptography := s

/-- Whole-pipeline encryption for a key stream `r`. -/
def encrypt (r : Nat → Nat) (data : List Nat) : List Nat :=
  ((SimpleCryptography.mk' r).encrypt data).1

/-- Whole-pipeline decryption for a key stream `r`. -/
def decrypt (r : Nat → Nat) (data : List Nat) : List Nat :=
  ((SimpleCryptography.mk' r).decrypt data).1

/- Permutation facts about the shuffle. -/

theorem getD_cons_set_perm (t : List Nat) (k : Nat) (a : Nat)
    (hk : k < t.length) : (t.getD k 0 :: t.set k a).Perm (a :: t) := by
  induction t generalizing k with
  | nil => simp at hk
  | cons b t' ih =>
    cases k with
    | zero => simpa using List.Perm.swap a b t'
    | succ m =>
      have hm : m < t'.length := by simpa using hk
      have h1 : (t'.getD m 0 :: b :: t'.set m a).Perm
          (b :: t'.getD m 0 :: t'.set m a) := List.Perm.swap _ _ _
      have h2 : (b :: t'.getD m 0 :: t'.set m a).Perm (b :: a :: t') :=
        (ih m hm).cons b
      have h3 : (b :: a :: t').Perm (a :: b :: t') := List.Perm.swap _ _ _
      simpa using (h1.trans h2).trans h3

theorem swap_perm (l : List Nat) (i j : Nat) (hi : i < l.length)
    (hj : j < l.length) : (swap l i j).Perm l := by
  induction l generalizing i j with
  | nil => simp at hi
  | cons a t ih =>
    cases i with
    | zero =>
      cases j with
      | zero => simp [swap]
      | succ k =>
        have hk : k < t.length := by simpa using hj
        simpa [swap] using getD_cons_set_perm t k a hk
    | succ m =>
      cases j with
      | zero =>
        have hm : m < t.length := by simpa using hi
        simpa [swap] using getD_cons_set_perm t m a hm
      | succ k =>
        have hm : m < t.length := by simpa using hi
        have hk : k < t.length := by simpa using hj
        have := (ih m k hm hk).cons a
        simpa [swap] using this

theorem shuffleAux_perm (r : Nat → Nat) (n : Nat) (l : List Nat)
    (hn : n < l.length) : (shuffleAux r n l).Perm l := by
  induction n generalizing l with
  | zero => simp [shuffleAux]
  | succ i ih =>
    have hi : i + 1 < l.length := hn
    have hj : r (i + 1) % (i + 2) < l.length :=
      lt_of_le_of_lt (Nat.le_of_lt_succ (Nat.mod_lt _ (by omega))) hi
    have hsw : (swap l (i + 1) (r (i + 1) % (i + 2))).Perm l :=
      swap_perm l _ _ hi hj
    have hlen : (swap l (i + 1) (r (i + 1) % (i + 2))).length = l.length :=
      hsw.length_eq
    have hi' : i < (swap l (i + 1) (r (i + 1) % (i + 2))).length := by omega
    exact (ih _ hi').trans hsw

theorem pyShuffle_perm (r : Nat → Nat) (l : List Nat) :
    (pyShuffle r l).Perm l := by
  unfold pyShuffle
  rcases l with _ | ⟨a, t⟩
  · simp [shuffleAux]
  · exact shuffleAux_perm r _ _ (by simp)

theorem encryptByteMap_perm (r : Nat → Nat) :
    (encryptByteMap r).Perm (List.range 256) :=
  pyShuffle_perm r (List.range 256)

/- The sorted-zip construction of the decryption table inverts the
encryption table. -/

theorem decryptByteMapOf_spec (bm : List Nat) (hbm : bm.Perm (List.range 256)) :
    ∀ e < 256, ∃ y, y < 256 ∧ bm.getD y 0 = e ∧
      (decryptByteMapOf bm).getD e 0 = y := by
  have hlen : bm.length = 256 := by simpa using hbm.length_eq
  have hzl_len : (bm.zip (List.range 256)).length = 256 := by simp [hlen]
  have hperm : (List.insertionSort pairLe (bm.zip (List.range 256))).Perm
      (bm.zip (List.range 256)) := List.perm_insertionSort pairLe _
  have hsorted : List.Sorted pairLe
      (List.insertionSort pairLe (bm.zip (List.range 256))) :=
    List.sorted_insertionSort pairLe _
  have hfst_zl : (bm.zip (List.range 256)).map Prod.fst = bm :=
    List.map_fst_zip _ _ (by simp [hlen])
  have hfst_perm : ((List.insertionSort pairLe (bm.zip (List.range 256))).map
      Prod.fst).Perm (List.range 256) := by
    have := hperm.map Prod.fst
    rw [hfst_zl] at this
    exact this.trans hbm
  have hsorted_le : ((List.insertionSort pairLe (bm.zip (List.range 256))).map
      Prod.fst).Sorted (· ≤ ·) :=
    hsorted.map _ (fun _ _ h => h)
  have hnodup : ((List.insertionSort pairLe (bm.zip (List.range 256))).map
      Prod.fst).Nodup := hfst_perm.symm.nodup (List.nodup_range 256)
  have hfst_eq : (List.insertionSort pairLe (bm.zip (List.range 256))).map
      Prod.fst = List.range 256 :=
    List.eq_of_perm_of_sorted hfst_perm (hsorted_le.lt_of_le hnodup)
      (List.sorted_lt_range 256)
  have hslen : (List.insertionSort pairLe (bm.zip (List.range 256))).length
      = 256 := by
    have := congrArg List.length hfst_eq
    simpa using this
  intro e he
  have he' : e < (List.insertionSort pairLe (bm.zip (List.range 256))).length := by
    omega
  have hfme : e < ((List.insertionSort pairLe (bm.zip (List.range 256))).map
      Prod.fst).length := by
    simpa [hslen] using he
  have hfst_e : ((List.insertionSort pairLe (bm.zip (List.range 256)))[e]).1
      = e := by
    have h1 : ((List.insertionSort pairLe (bm.zip (List.range 256))).map
        Prod.fst)[e] = e := by
      simp [hfst_eq, List.getElem_range]
    simpa using h1
  have hmem : (List.insertionSort pairLe (bm.zip (List.range 256)))[e]
      ∈ bm.zip (List.range 256) :=
    hperm.subset (List.getElem_mem he')
  rcases List.getElem_of_mem hmem with ⟨i, hi, hzi⟩
  have hi256 : i < 256 := by omega
  have hibm : i < bm.length := by omega
  have hzi' : (bm.zip (List.range 256))[i] = (bm[i], i) := by
    simp [List.getElem_zip, List.getElem_range]
  refine ⟨i, hi256, ?_, ?_⟩
  · have : bm[i] = e := by
      have := hzi.symm.trans hzi'
      have hfst := congrArg Prod.fst this
      simpa [hfst_e] using hfst.symm
    rw [List.getD_eq_getElem _ _ hibm, this]
  · have hde : e < (decryptByteMapOf bm).length := by
      simp [decryptByteMapOf, hslen]; omega
    rw [List.getD_eq_getElem _ _ hde]
    show ((List.insertionSort pairLe (bm.zip (List.range 256))).map
        Prod.snd)[e] = i
    have hsnd : ((List.insertionSort pairLe (bm.zip (List.range 256)))[e]).2
        = i := by
      have := hzi.symm.trans hzi'
      have h2 := congrArg Prod.snd this
      simpa using h2
    simpa using hsnd

theorem table_inverse (bm : List Nat) (hbm : bm.Perm (List.range 256)) :
    (∀ c < 256, (decryptByteMapOf bm).getD (bm.getD c 0) 0 = c) ∧
    (∀ e < 256, bm.getD ((decryptByteMapOf bm).getD e 0) 0 = e) := by
  have hlen : bm.length = 256 := by simpa using hbm.length_eq
  have hnodup : bm.Nodup := hbm.symm.nodup (List.nodup_range 256)
  constructor
  · intro c hc
    have hcl : c < bm.length := by omega
    have he : bm.getD c 0 < 256 := by
      rw [List.getD_eq_getElem _ _ hcl]
      have : bm[c] ∈ bm := List.getElem_mem hcl
      have : bm[c] ∈ List.range 256 := hbm.subset this
      simpa using this
    rcases decryptByteMapOf_spec bm hbm _ he with ⟨y, hy, hbmy, hdm⟩
    have hyl : y < bm.length := by omega
    have : y = c := by
      have h1 : bm[y] = bm[c] := by
        rw [List.getD_eq_getElem _ _ hyl, List.getD_eq_getElem _ _ hcl] at hbmy
        exact hbmy
      exact (hnodup.getElem_inj_iff).1 h1
    rw [hdm, this]
  · intro e he
    rcases decryptByteMapOf_spec bm hbm e he with ⟨y, _, hbmy, hd⟩
    rw [hd, hbmy]

/- Helper facts about `crypt` and the two tables. -/

theorem crypt_length (bm data : List Nat) : (crypt bm data).length = data.length := by
  simp [crypt]

theorem crypt_crypt_id (dm em : List Nat)
    (hinv : ∀ c < 256, dm.getD (em.getD c 0) 0 = c) :
    ∀ data : List Nat, ValidBytes data → crypt dm (crypt em data) = data := by
  intro data hv
  induction data with
  | nil => simp [crypt]
  | cons c rest ih =>
    have hc : c < 256 := hv c (by simp)
    have hrest : ValidBytes rest := fun b hb => hv b (by simp [hb])
    simp only [crypt, List.map_cons] at ih ⊢
    rw [hinv c hc, ih hrest]

theorem decryptByteMap_inverse (r : Nat → Nat) :
    ∀ c < 256, (decryptByteMap r).getD ((encryptByteMap r).getD c 0) 0 = c :=
  (table_inverse _ (encryptByteMap_perm r)).1

theorem decryptByteMap_inverse2 (r : Nat → Nat) :
    ∀ e < 256, (encryptByteMap r).getD ((decryptByteMap r).getD e 0) 0 = e :=
  (table_inverse _ (encryptByteMap_perm r)).2

theorem encryptByteMap_length (r : Nat → Nat) : (encryptByteMap r).length = 256 := by
  simpa using (encryptByteMap_perm r).length_eq

theorem decryptByteMapOf_length (bm : List Nat) (hbm : bm.Perm (List.range 256)) :
    (decryptByteMapOf bm).length = 256 := by
  have h1 : (List.insertionSort pairLe (bm.zip (List.range 256))).length
      = (bm.zip (List.range 256)).length :=
    (List.perm_insertionSort pairLe _).length_eq
  have hlen : bm.length = 256 := by simpa using hbm.length_eq
  simp [decryptByteMapOf, h1, hlen]

theorem decryptByteMap_length (r : Nat → Nat) : (decryptByteMap r).length = 256 :=
  decryptByteMapOf_length _ (encryptByteMap_perm r)

attribute [irreducible] shuffleAux pyShuffle encryptByteMap decryptByteMapOf
attribute [irreducible] decryptByteMap

theorem encrypt_eq (r : Nat → Nat) (data : List Nat) :
    encrypt r data = crypt (encryptByteMap r) data := rfl

theorem decrypt_eq (r : Nat → Nat) (data : List Nat) :
    decrypt r data = crypt (decryptByteMap r) data := rfl

theorem encrypt_valid (r : Nat → Nat) (data : List Nat) :
    ValidBytes data → ValidBytes (encrypt r data) := by
  intro hv b hb
  rw [encrypt_eq] at hb
  simp only [crypt, List.mem_map] at hb
  rcases hb with ⟨c, hc, rfl⟩
  have hc256 : c < 256 := hv c hc
  have hcl : c < (encryptByteMap r).length := by
    rw [encryptByteMap_length]; omega
  rw [List.getD_eq_getElem _ _ hcl]
  have hmem : (encryptByteMap r)[c] ∈ encryptByteMap r := List.getElem_mem hcl
  have : (encryptByteMap r)[c] ∈ List.range 256 :=
    (encryptByteMap_perm r).subset hmem
  simpa using this

/- Claim theorems about the Simple cipher. -/

/-- Claim C1: for every secret key (abstracted as the seeded random stream
`r`) and every byte sequence `P`, decrypting the encryption of `P` with the
same `SimpleCryptography` instance gives back `P`. -/
theorem simple_roundtrip (r : Nat → Nat) (P : List Nat) (h : ValidBytes P) :
    decrypt r (encrypt r P) = P := by
  rw [decrypt_eq, encrypt_eq]
  exact crypt_crypt_id _ _ (decryptByteMap_inverse r) P h

/-- Witness for C1 at a concrete key stream and plaintext. -/
theorem simple_roundtrip_witness :
    ValidBytes [5, 0, 255, 17] ∧
      decrypt (fun n => n * n + 3) (encrypt (fun n => n * n + 3) [5, 0, 255, 17])
        = [5, 0, 255, 17] :=
  ⟨by decide, simple_roundtrip (fun n => n * n + 3) [5, 0, 255, 17] (by decide)⟩

/-- Claim C2: the Simple algorithm acts independently on each byte: the
decryption of any slice `[a, b)` of a ciphertext is the same slice of the
plaintext, and encryption is a homomorphism for concatenation. -/
theorem simple_slice (r : Nat → Nat) (P : List Nat) (a b : Nat)
    (h : ValidBytes P) :
    decrypt r (((encrypt r P).drop a).take (b - a)) = (P.drop a).take (b - a) ∧
      (∀ P1 P2 : List Nat, encrypt r (P1 ++ P2) = encrypt r P1 ++ encrypt r P2) := by
  constructor
  · have hsub : ValidBytes ((P.drop a).take (b - a)) := by
      intro x hx
      exact h x (List.mem_of_mem_drop (List.mem_of_mem_take hx))
    have hcomm : ((encrypt r P).drop a).take (b - a)
        = encrypt r ((P.drop a).take (b - a)) := by
      rw [encrypt_eq, encrypt_eq]
      simp [crypt, List.map_take, List.map_drop]
    rw [hcomm]
    exact simple_roundtrip r _ hsub
  · intro P1 P2
    rw [encrypt_eq, encrypt_eq, encrypt_eq]
    simp [crypt]

/-- Witness for C2 at a concrete key stream, plaintext and slice. -/
theorem simple_slice_witness :
    ValidBytes [9, 1, 2, 250, 4] ∧
      decrypt (fun n => 7 * n + 1)
          (((encrypt (fun n => 7 * n + 1) [9, 1, 2, 250, 4]).drop 1).take (4 - 1))
        = ([9, 1, 2, 250, 4].drop 1).take (4 - 1) :=
  ⟨by decide,
    (simple_slice (fun n => 7 * n + 1) [9, 1, 2, 250, 4] 1 4 (by decide)).1⟩

/-- Claim C3: for every key, the derived encryption table is a permutation
of the 256 byte values, the decryption table is its inverse on both sides,
and both tables are functions of the key stream alone (they are `def`s of
`r`, so determinism is by construction). -/
theorem simple_tables_inverse (r : Nat → Nat) :
    (encryptByteMap r).Perm (List.range 256) ∧
      (∀ c < 256, (decryptByteMap r).getD ((encryptByteMap r).getD c 0) 0 = c) ∧
      (∀ e < 256, (encryptByteMap r).getD ((decryptByteMap r).getD e 0) 0 = e) :=
  ⟨encryptByteMap_perm r, decryptByteMap_inverse r, decryptByteMap_inverse2 r⟩

/-- Witness for C3: instantiate the inverse properties at byte 7 for a
concrete key stream. -/
theorem simple_tables_inverse_witness :
    (7 : Nat) < 256 ∧
      (decryptByteMap (fun _ => 0)).getD ((encryptByteMap (fun _ => 0)).getD 7 0) 0 = 7 ∧
      (encryptByteMap (fun _ => 0)).getD ((decryptByteMap (fun _ => 0)).getD 7 0) 0 = 7 :=
  ⟨by decide, (simple_tables_inverse (fun _ => 0)).2.1 7 (by decide),
    (simple_tables_inverse (fun _ => 0)).2.2 7 (by decide)⟩

/- Error model: `byte_map[c]` as a checked C-level access.  `cryptE`
returns `none` exactly when some input byte falls outside the table. -/

/-- Checked variant of `crypt`: every table access may fail. -/
def cryptE (byteMap : List Nat) : List Nat → Option (List Nat)
  | [] => some []
  | c :: rest =>
    match byteMap[c]? with
    | none => none
    | some b =>
      match cryptE byteMap rest with
      | none => none
      | some t => some (b :: t)

/-- Checked `SimpleCryptography.encrypt` under key stream `r`. -/
def encryptE (r : Nat → Nat) (data : List Nat) : Option (List Nat) :=
  cryptE (encryptByteMap r) data

/-- Checked `SimpleCryptography.decrypt` under key stream `r`. -/
def decryptE (r : Nat → Nat) (data : List Nat) : Option (List Nat) :=
  cryptE (decryptByteMap r) data

theorem cryptE_eq_some (bm : List Nat) (hlen : bm.length = 256) :
    ∀ data : List Nat, ValidBytes data → cryptE bm data = some (crypt bm data) := by
  intro data hv
  induction data with
  | nil => simp [cryptE, crypt]
  | cons c rest ih =>
    have hc : c < bm.length := by rw [hlen]; exact hv c (by simp)
    have hrest : ValidBytes rest := fun b hb => hv b (by simp [hb])
    rw [cryptE, List.getElem?_eq_getElem hc, ih hrest]
    simp only [crypt, List.map_cons]
    rw [List.getD_eq_getElem _ _ hc]

/-- Claim C4: decrypting with a wrong secret is not detected at the cipher
layer.  For any two key streams `r1`, `r2` and any plaintext `P`,
decrypting under `r2` data encrypted under `r1` completes without error and
yields some byte sequence; more generally the checked decryption never
fails on any valid byte sequence, since no MAC or integrity check exists. -/
theorem simple_decrypt_never_fails (r1 r2 : Nat → Nat) (P : List Nat)
    (h : ValidBytes P) :
    (∃ C Q, encryptE r1 P = some C ∧ decryptE r2 C = some Q ∧
      Q.length = P.length) ∧
    (∀ D, ValidBytes D → ∃ Q, decryptE r2 D = some Q ∧ Q.length = D.length) := by
  have hdec : ∀ D, ValidBytes D →
      decryptE r2 D = some (crypt (decryptByteMap r2) D) := by
    intro D hD
    exact cryptE_eq_some _ (decryptByteMap_length r2) D hD
  constructor
  · refine ⟨crypt (encryptByteMap r1) P, crypt (decryptByteMap r2)
      (crypt (encryptByteMap r1) P), ?_, ?_, ?_⟩
    · exact cryptE_eq_some _ (encryptByteMap_length r1) P h
    · refine hdec _ ?_
      have := encrypt_valid r1 P h
      rwa [encrypt_eq] at this
    · rw [crypt_length, crypt_length]
  · intro D hD
    exact ⟨crypt (decryptByteMap r2) D, hdec D hD, crypt_length _ _⟩

/-- Witness for C4 at concrete distinct key streams and a concrete
plaintext. -/
theorem simple_decrypt_never_fails_witness :
    ValidBytes [1, 2, 3] ∧
      ∃ C Q, encryptE (fun _ => 0) [1, 2, 3] = some C ∧
        decryptE (fun n => n + 1) C = some Q ∧ Q.length = [1, 2, 3].length :=
  ⟨by decide,
    (simple_decrypt_never_fails (fun _ => 0) (fun n => n + 1) [1, 2, 3]
      (by decide)).1⟩

/-- Claim C8: `encrypt` and `decrypt` preserve length on every byte
sequence, including the empty one, so ciphertext offsets coincide with
plaintext offsets. -/
theorem simple_length_preserved (r : Nat → Nat) (d : List Nat) :
    (encrypt r d).length = d.length ∧ (decrypt r d).length = d.length := by
  rw [encrypt_eq, decrypt_eq]
  exact ⟨crypt_length _ _, crypt_length _ _⟩

/- Method-call model for the immutability claim: a `SimpleCryptography`
object subjected to an arbitrary sequence of `encrypt`, `decrypt` and
`reset` calls. -/

/-- One method call on a `SimpleCryptography` object. -/
inductive CipherOp where
  | encryptOp (d : List Nat)
  | decryptOp (d : List Nat)
  | resetOp

/-- The object state after one method call. -/
def applyOp (s : SimpleCryptography) : CipherOp → SimpleCryptography
  | CipherOp.encryptOp d => (s.encrypt d).2
  | CipherOp.decryptOp d => (s.decrypt d).2
  | CipherOp.resetOp => s.reset

/-- The object state after a sequence of method calls. -/
def applyOps (s : SimpleCryptography) (ops : List CipherOp) : SimpleCryptography :=
  ops.foldl applyOp s

theorem applyOp_id (s : SimpleCryptography) (op : CipherOp) : applyOp s op = s := by
  cases op <;> rfl

/-- Claim C9: a `SimpleCryptography` instance is immutable after
construction: any sequence of `encrypt`, `decrypt` and `reset` calls leaves
the stored byte maps and key unchanged, so `encrypt` and `decrypt` on the
same input always return the same output as on the fresh instance. -/
theorem simple_instance_immutable (s : SimpleCryptography) (ops : List CipherOp)
    (d : List Nat) :
    applyOps s ops = s ∧
      (applyOps s ops).encrypt_byte_map = s.encrypt_byte_map ∧
      (applyOps s ops).decrypt_byte_map = s.decrypt_byte_map ∧
      (applyOps s ops).key = s.key ∧
      ((applyOps s ops).encrypt d).1 = (s.encrypt d).1 ∧
      ((applyOps s ops).decrypt d).1 = (s.decrypt d).1 := by
  have h : applyOps s ops = s := by
    induction ops with
    | nil => rfl
    | cons op rest ih =>
      show List.foldl applyOp (applyOp s op) rest = s
      rw [applyOp_id]
      exact ih
  exact ⟨h, by rw [h], by rw [h], by rw [h], by rw [h], by rw [h]⟩

/- Heap model for the frame claim: byte buffers live in a heap addressed by
indices; `bytes(bytearray(data))` allocates a fresh buffer holding a copy,
and `crypt` then overwrites that fresh buffer in place. -/

theorem cryptIter_eq (bm data : List Nat) :
    ∀ n, n ≤ data.length →
      cryptIter bm data n
        = (data.take n).map (fun c => bm.getD c 0) ++ data.drop n := by
  intro n
  induction n with
  | zero => simp [cryptIter]
  | succ m ih =>
    intro hm
    have hm' : m ≤ data.length := by omega
    have hmlt : m < data.length := by omega
    have hlen : ((data.take m).map (fun c => bm.getD c 0)).length = m := by
      simp [List.length_take]; omega
    have hdrop : data.drop m = data[m] :: data.drop (m + 1) :=
      List.drop_eq_getElem_cons hmlt
    simp only [cryptIter, ih hm']
    rw [List.getD_append_right _ _ _ _ (by omega), List.set_append_right _ _ (by omega),
      hdrop]
    simp only [hlen, Nat.sub_self, List.getD_cons_zero, List.set_cons_zero]
    have htake : data.take (m + 1) = data.take m ++ [data[m]] := by
      rw [List.take_succ, List.getElem?_eq_getElem hmlt]
      rfl
    rw [htake, List.map_append]
    simp [List.append_assoc]

theorem cryptInPlace_eq (bm data : List Nat) :
    cryptInPlace bm data = crypt bm data := by
  rw [cryptInPlace, cryptIter_eq bm data data.length le_rfl]
  simp [crypt]

/-- `SimpleCryptography.encrypt` acting on a heap of byte buffers: read the
buffer at `ref`, allocate a fresh copy, substitute the copy in place, and
return the fresh buffer's address. -/
def encryptOnHeap (s : SimpleCryptography) (h : List (List Nat)) (ref : Nat) :
    List (List Nat) × Nat :=
  ((h ++ [h.getD ref []]).set h.length
    (cryptInPlace s.encrypt_byte_map (h.getD ref [])), h.length)

/-- `SimpleCryptography.decrypt` acting on the same heap model. -/
def decryptOnHeap (s : SimpleCryptography) (h : List (List Nat)) (ref : Nat) :
    List (List Nat) × Nat :=
  ((h ++ [h.getD ref []]).set h.length
    (cryptInPlace s.decrypt_byte_map (h.getD ref [])), h.length)

theorem heap_frame (bm : List Nat) (h : List (List Nat)) (ref : Nat)
    (href : ref < h.length) :
    ((h ++ [h.getD ref []]).set h.length (cryptInPlace bm (h.getD ref []))).getD
        ref [] = h.getD ref [] ∧
      ((h ++ [h.getD ref []]).set h.length
        (cryptInPlace bm (h.getD ref []))).getD h.length [] = crypt bm (h.getD ref []) := by
  have hlen2 : ((h ++ [h.getD ref []]).set h.length
      (cryptInPlace bm (h.getD ref []))).length = h.length + 1 := by
    simp
  constructor
  · rw [List.getD_eq_getElem _ _ (by omega)]
    rw [List.getElem_set_ne (by omega)]
    rw [List.getElem_append_left (by omega)]
    exact (List.getD_eq_getElem _ _ href).symm
  · rw [List.getD_eq_getElem _ _ (by omega)]
    rw [List.getElem_set_self]
    exact cryptInPlace_eq bm _

/-- Claim C10: the methods do not mutate their argument: in the heap model
the buffer passed to `encrypt`/`decrypt` holds its original contents after
the call, and the returned buffer is a distinct object (a fresh address). -/
theorem simple_no_argument_mutation (s : SimpleCryptography)
    (h : List (List Nat)) (ref : Nat) (href : ref < h.length) :
    (encryptOnHeap s h ref).2 ≠ ref ∧
      (encryptOnHeap s h ref).1.getD ref [] = h.getD ref [] ∧
      (encryptOnHeap s h ref).1.getD (encryptOnHeap s h ref).2 []
        = crypt s.encrypt_byte_map (h.getD ref []) ∧
      (decryptOnHeap s h ref).2 ≠ ref ∧
      (decryptOnHeap s h ref).1.getD ref [] = h.getD ref [] ∧
      (decryptOnHeap s h ref).1.getD (decryptOnHeap s h ref).2 []
        = crypt s.decrypt_byte_map (h.getD ref []) := by
  refine ⟨by simp [encryptOnHeap]; omega, (heap_frame _ h ref href).1,
    (heap_frame _ h ref href).2, by simp [decryptOnHeap]; omega,
    (heap_frame _ h ref href).1, (heap_frame _ h ref href).2⟩

/-- Witness for C10 on a concrete heap holding two buffers. -/
theorem simple_no_argument_mutation_witness :
    (0 : Nat) < ([[1, 2], [3]] : List (List Nat)).length ∧
      (encryptOnHeap (SimpleCryptography.mk' (fun _ => 0)) [[1, 2], [3]] 0).2 ≠ 0 ∧
      (encryptOnHeap (SimpleCryptography.mk' (fun _ => 0)) [[1, 2], [3]] 0).1.getD 0 []
        = [[1, 2], [3]].getD 0 [] :=
  ⟨by decide,
    (simple_no_argument_mutation (SimpleCryptography.mk' (fun _ => 0))
      [[1, 2], [3]] 0 (by decide)).1,
    (simple_no_argument_mutation (SimpleCryptography.mk' (fun _ => 0))
      [[1, 2], [3]] 0 (by decide)).2.1⟩

end SimpleCipher

namespace SyncPlanner

/-- Modelled from the spec: the sync differ's action set (the SyncPlanner
module is not part of the provided sources). -/
inductive SyncAction where
  | CreateRemote
  | UpdateRemote
  | DeleteRemote
  | Skip
deriving DecidableEq, Repr

/-- Modelled from the spec: a tree entry carries a size and a modification
time; the differ compares exactly these two fields. -/
structure TreeEntry where
  size : Nat
  mtime : Nat
deriving DecidableEq, Repr

/-- First-match lookup in an association list keyed by path. -/
def alookup {α : Type} : List (String × α) → String → Option α
  | [], _ => none
  | (q, e) :: rest, p => if q = p then some e else alookup rest p

/-- Modelled from the spec: the action assigned to a local entry: `Skip`
iff size and mtime match the remote entry exactly, `UpdateRemote` on any
mismatch, `CreateRemote` when the path is absent remotely. -/
def entryAction (rt : List (String × TreeEntry)) (p : String) (e : TreeEntry) :
    SyncAction :=
  match alookup rt p with
  | some re =>
    if e.size = re.size ∧ e.mtime = re.mtime then SyncAction.Skip
    else SyncAction.UpdateRemote
  | none => SyncAction.CreateRemote

/-- Modelled from the spec: `diff(local_tree, remote_tree)`: every local
path is assigned its action, every remote-only path is deleted. -/
def diff (lt rt : List (String × TreeEntry)) : List (String × SyncAction) :=
  lt.map (fun pe => (pe.1, entryAction rt pe.1 pe.2)) ++
    rt.filterMap (fun pe =>
      if alookup lt pe.1 = none then some (pe.1, SyncAction.DeleteRemote)
      else none)

theorem alookup_mapAction (rt : List (String × TreeEntry))
    (lt : List (String × TreeEntry)) (p : String) :
    alookup (lt.map (fun pe => (pe.1, entryAction rt pe.1 pe.2))) p
      = (alookup lt p).map (entryAction rt p) := by
  induction lt with
  | nil => simp [alookup]
  | cons qe rest ih =>
    rcases qe with ⟨q, e⟩
    by_cases hq : q = p
    · subst hq
      simp [alookup]
    · simp [alookup, hq, ih]

theorem alookup_append {α : Type} (l1 l2 : List (String × α)) (p : String) :
    alookup (l1 ++ l2) p
      = match alookup l1 p with
        | some v => some v
        | none => alookup l2 p := by
  induction l1 with
  | nil => simp [alookup]
  | cons qe rest ih =>
    rcases qe with ⟨q, v⟩
    by_cases hq : q = p
    · subst hq
      simp [alookup]
    · simp [alookup, hq, ih]

theorem alookup_filterDel (lt rt : List (String × TreeEntry)) (p : String) :
    alookup (rt.filterMap (fun pe =>
        if alookup lt pe.1 = none then some (pe.1, SyncAction.DeleteRemote)
        else none)) p
      = if alookup lt p = none then
          (alookup rt p).map (fun _ => SyncAction.DeleteRemote)
        else none := by
  induction rt with
  | nil => simp [alookup]
  | cons qe rest ih =>
    rcases qe with ⟨q, e⟩
    by_cases hcond : alookup lt q = none
    · by_cases hq : q = p
      · subst hq
        simp [List.filterMap_cons, hcond, alookup]
      · simp [List.filterMap_cons, hcond, alookup, hq, ih]
    · by_cases hq : q = p
      · subst hq
        simp [List.filterMap_cons, hcond, alookup, ih]
      · simp [List.filterMap_cons, hcond, alookup, hq, ih]

/-- The concrete local tree of the claim, with T1 = 100, T2 = 200. -/
def exampleLocal : List (String × TreeEntry) :=
  [("a", ⟨10, 100⟩), ("b", ⟨20, 200⟩)]

/-- The concrete remote tree of the claim, with T1 = 100, T3 = 300. -/
def exampleRemote : List (String × TreeEntry) :=
  [("a", ⟨10, 100⟩), ("c", ⟨5, 300⟩)]

/-- Claim C7: `diff` maps a path present in both trees to `Skip` iff its
size and mtime match exactly and to `UpdateRemote` otherwise, a local-only
path to `CreateRemote`, a remote-only path to `DeleteRemote`; and on the
concrete trees of the claim it yields exactly
`a: Skip, b: CreateRemote, c: DeleteRemote`. -/
theorem sync_diff_characterization :
    (∀ (lt rt : List (String × TreeEntry)) (p : String),
      (∀ e re, alookup lt p = some e → alookup rt p = some re →
        alookup (diff lt rt) p
          = some (if e.size = re.size ∧ e.mtime = re.mtime then SyncAction.Skip
              else SyncAction.UpdateRemote)) ∧
      (∀ e, alookup lt p = some e → alookup rt p = none →
        alookup (diff lt rt) p = some SyncAction.CreateRemote) ∧
      (∀ re, alookup lt p = none → alookup rt p = some re →
        alookup (diff lt rt) p = some SyncAction.DeleteRemote) ∧
      (alookup lt p = none → alookup rt p = none →
        alookup (diff lt rt) p = none)) ∧
    diff exampleLocal exampleRemote
      = [("a", SyncAction.Skip), ("b", SyncAction.CreateRemote),
          ("c", SyncAction.DeleteRemote)] := by
  constructor
  · intro lt rt p
    refine ⟨?_, ?_, ?_, ?_⟩
    · intro e re hl hr
      rw [diff, alookup_append, alookup_mapAction, hl]
      simp [entryAction, hr]
    · intro e hl hr
      rw [diff, alookup_append, alookup_mapAction, hl]
      simp [entryAction, hr]
    · intro re hl hr
      rw [diff, alookup_append, alookup_mapAction, hl]
      simp [alookup_filterDel, hl, hr]
    · intro hl hr
      rw [diff, alookup_append, alookup_mapAction, hl]
      simp [alookup_filterDel, hl, hr]
  · decide

/-- Witness for C7: instantiate the characterization on the concrete trees
at path `a` (present in both, equal metadata, hence `Skip`). -/
theorem sync_diff_characterization_witness :
    alookup exampleLocal "a" = some ⟨10, 100⟩ ∧
      alookup exampleRemote "a" = some ⟨10, 100⟩ ∧
      alookup (diff exampleLocal exampleRemote) "a"
        = some (if (10 : Nat) = 10 ∧ (100 : Nat) = 100 then SyncAction.Skip
            else SyncAction.UpdateRemote) :=
  ⟨by decide, by decide,
    (sync_diff_characterization.1 exampleLocal exampleRemote "a").1
      ⟨10, 100⟩ ⟨10, 100⟩ (by decide) (by decide)⟩

end SyncPlanner

namespace CipherSuite

/-- Modelled from the spec: the closed algorithm set of the cipher suite
(the envelope module is not part of the provided sources). -/
inductive CipherAlgo where
  | noneAlg
  | simple
  | streamCipherA
  | blockCipherA
deriving DecidableEq, Repr

/-- Wire id of an algorithm. -/
def algoId : CipherAlgo → Nat
  | CipherAlgo.noneAlg => 0
  | CipherAlgo.simple => 1
  | CipherAlgo.streamCipherA => 2
  | CipherAlgo.blockCipherA => 3

/-- Algorithm from a wire id; unknown ids are rejected. -/
def algoOfId : Nat → Option CipherAlgo
  | 0 => some CipherAlgo.noneAlg
  | 1 => some CipherAlgo.simple
  | 2 => some CipherAlgo.streamCipherA
  | 3 => some CipherAlgo.blockCipherA
  | _ => none

/-- Modelled from the spec: the self-describing envelope: algorithm,
format version, salt and nonce-or-iv. -/
structure EncryptionEnvelope where
  algorithm : CipherAlgo
  format_version : Nat
  salt : List Nat
  nonce_or_iv : List Nat
deriving DecidableEq, Repr

/-- Modelled from the spec: envelope header layout: a fixed prefix with
format version and algorithm id, then the length-delimited salt and
nonce/iv fields. -/
def encodeEnvelope (env : EncryptionEnvelope) : List Nat :=
  [env.format_version, algoId env.algorithm, env.salt.length] ++ env.salt ++
    [env.nonce_or_iv.length] ++ env.nonce_or_iv

/-- Error outcomes of the envelope decoder. -/
inductive EnvelopeError where
  | unsupportedVersion
  | corruptEnvelope
  | unknownAlgorithm
deriving DecidableEq, Repr

/-- Read one length-delimited block. -/
def readBlock (data : List Nat) : Option (List Nat × List Nat) :=
  match data with
  | [] => none
  | n :: rest => if n ≤ rest.length then some (rest.take n, rest.drop n) else none

/-- Modelled from the spec: the version-3-capable envelope decoder: it
accepts format versions 1 and 3, rejects version 2 explicitly as
unsupported (the declared one-way dead format), and rejects malformed
headers as corrupt. -/
def decodeEnvelopeV3 (data : List Nat) : Except EnvelopeError EncryptionEnvelope :=
  match data with
  | v :: a :: rest =>
    if v = 2 then Except.error EnvelopeError.unsupportedVersion
    else if v = 1 ∨ v = 3 then
      match algoOfId a with
      | none => Except.error EnvelopeError.unknownAlgorithm
      | some alg =>
        match readBlock rest with
        | none => Except.error EnvelopeError.corruptEnvelope
        | some (salt, rest2) =>
          match readBlock rest2 with
          | none => Except.error EnvelopeError.corruptEnvelope
          | some (nonce, rest3) =>
            if rest3 = [] then
              Except.ok ⟨alg, v, salt, nonce⟩
            else Except.error EnvelopeError.corruptEnvelope
    else Except.error EnvelopeError.corruptEnvelope
  | _ => Except.error EnvelopeError.corruptEnvelope

theorem algoOfId_algoId (alg : CipherAlgo) : algoOfId (algoId alg) = some alg := by
  cases alg <;> rfl

theorem readBlock_exact (s t : List Nat) :
    readBlock (s.length :: (s ++ t)) = some (s, t) := by
  simp [readBlock, List.take_left, List.drop_left]

/-- Claim C6: the version-3-capable decoder accepts and correctly decodes
envelopes of format version 1 and 3, and fails explicitly (with an error
result, never a silently corrupt envelope) on format version 2. -/
theorem envelope_version_compat (env : EncryptionEnvelope) :
    (env.format_version = 1 ∨ env.format_version = 3 →
      decodeEnvelopeV3 (encodeEnvelope env) = Except.ok env) ∧
    (env.format_version = 2 →
      decodeEnvelopeV3 (encodeEnvelope env)
        = Except.error EnvelopeError.unsupportedVersion) := by
  rcases env with ⟨alg, v, salt, nonce⟩
  have hlayout : encodeEnvelope ⟨alg, v, salt, nonce⟩
      = v :: algoId alg :: (salt.length :: (salt ++ ([nonce.length] ++ nonce))) := by
    simp [encodeEnvelope]
  constructor
  · intro hv
    have hv' : v = 1 ∨ v = 3 := by simpa using hv
    have hv2 : v ≠ 2 := by rcases hv' with h | h <;> omega
    rw [hlayout]
    rw [decodeEnvelopeV3.eq_def]
    simp only [hv2, if_false, if_neg hv2, hv', if_true, if_pos hv', algoOfId_algoId,
      readBlock_exact]
    have hnb : readBlock ([nonce.length] ++ nonce) = some (nonce, []) := by
      have := readBlock_exact nonce []
      simpa using this
    rw [hnb]
    simp
  · intro hv
    have hv' : v = 2 := by simpa using hv
    subst hv'
    rw [hlayout]
    rw [decodeEnvelopeV3.eq_def]
    simp

/-- Witness for C6: a concrete version-1 envelope decodes to itself and the
same envelope restamped as version 2 is rejected as unsupported. -/
theorem envelope_version_compat_witness :
    decodeEnvelopeV3 (encodeEnvelope ⟨CipherAlgo.simple, 1, [7, 8], [9]⟩)
        = Except.ok ⟨CipherAlgo.simple, 1, [7, 8], [9]⟩ ∧
      decodeEnvelopeV3 (encodeEnvelope ⟨CipherAlgo.simple, 2, [7, 8], [9]⟩)
        = Except.error EnvelopeError.unsupportedVersion :=
  ⟨(envelope_version_compat ⟨CipherAlgo.simple, 1, [7, 8], [9]⟩).1 (Or.inl rfl),
    (envelope_version_compat ⟨CipherAlgo.simple, 2, [7, 8], [9]⟩).2 rfl⟩

end CipherSuite

namespace FingerprintCodec

/- Decimal rendering and parsing of the numeric hash-link fields
(`content_length`, `crc32`), as Python's `str`/`int` produce and consume
them. -/

/-- The ten decimal digit characters, code points 48 to 57. -/
def decChars : List Char := (List.range 10).map (fun d => Char.ofNat (48 + d))

theorem decChars_length : decChars.length = 10 := by decide

/-- Decimal rendering of a natural number, most significant digit first. -/
def natToChars (n : Nat) : List Char :=
  if n = 0 then ['0']
  else ((Nat.digits 10 n).reverse).map (fun d => decChars.getD d '0')

/-- Decimal parsing (big-endian digit fold, as `int` does). -/
def charsToNat (l : List Char) : Nat :=
  l.foldl (fun acc c => 10 * acc + (c.toNat - 48)) 0

theorem foldl_digits (ds : List Nat) (acc : Nat) :
    ds.foldl (fun a d => 10 * a + d) acc
      = acc * 10 ^ ds.length + Nat.ofDigits 10 ds.reverse := by
  induction ds generalizing acc with
  | nil => simp [Nat.ofDigits_nil]
  | cons d rest ih =>
    rw [List.foldl_cons, ih, List.reverse_cons, Nat.ofDigits_append]
    simp [Nat.ofDigits_singleton, Nat.pow_succ]
    ring

theorem charsToNat_map_decChar (ds : List Nat) (acc : Nat)
    (h : ∀ d ∈ ds, d < 10) :
    (ds.map (fun d => decChars.getD d '0')).foldl
        (fun a c => 10 * a + (c.toNat - 48)) acc
      = ds.foldl (fun a d => 10 * a + d) acc := by
  induction ds generalizing acc with
  | nil => simp
  | cons d rest ih =>
    have hd : d < 10 := h d (by simp)
    have hrest : ∀ x ∈ rest, x < 10 := fun x hx => h x (by simp [hx])
    have hdc : (decChars.getD d '0').toNat - 48 = d := by
      interval_cases d <;> decide
    simp only [List.map_cons, List.foldl_cons, hdc]
    exact ih _ hrest

/-- Parsing inverts rendering: `int(str(n)) = n`. -/
theorem charsToNat_natToChars (n : Nat) : charsToNat (natToChars n) = n := by
  by_cases h0 : n = 0
  · subst h0
    decide
  · rw [natToChars, if_neg h0, charsToNat]
    have hds : ∀ d ∈ (Nat.digits 10 n).reverse, d < 10 := by
      intro d hd
      exact Nat.digits_lt_base (by norm_num) (List.mem_reverse.mp hd)
    rw [charsToNat_map_decChar _ 0 hds, foldl_digits]
    simp [Nat.ofDigits_digits]

theorem natToChars_mem (n : Nat) : ∀ c ∈ natToChars n, c ∈ decChars := by
  intro c hc
  rw [natToChars] at hc
  by_cases h0 : n = 0
  · rw [if_pos h0] at hc
    simp at hc
    rw [hc]
    decide
  · rw [if_neg h0] at hc
    rcases List.mem_map.mp hc with ⟨d, _, rfl⟩
    by_cases hd : d < 10
    · have hlen : d < decChars.length := by rw [decChars_length]; omega
      rw [List.getD_eq_getElem _ _ hlen]
      exact List.getElem_mem hlen
    · rw [List.getD_eq_default _ _ (by rw [decChars_length]; omega)]
      decide

/- Percent-encoding of the filename for the `cs3l`/`short` textual links:
spaces become `%20` and, as in any percent-encoding, the escape character
itself becomes `%25`. -/

/-- Percent-encode a filename. -/
def pctEncode : List Char → List Char
  | [] => []
  | c :: rest =>
    if c = '%' then '%' :: '2' :: '5' :: pctEncode rest
    else if c = ' ' then '%' :: '2' :: '0' :: pctEncode rest
    else c :: pctEncode rest

/-- Percent-decode a filename. -/
def pctDecode (l : List Char) : List Char :=
  match l with
  | [] => []
  | c :: rest =>
    if c = '%' then
      match rest with
      | [] => [c]
      | [d1] => [c, d1]
      | d1 :: d2 :: rest2 =>
        if d1 = '2' ∧ d2 = '5' then '%' :: pctDecode rest2
        else if d1 = '2' ∧ d2 = '0' then ' ' :: pctDecode rest2
        else c :: pctDecode (d1 :: d2 :: rest2)
    else c :: pctDecode rest
termination_by l.length
decreasing_by all_goals (try simp) <;> omega

theorem pctDecode_pctEncode (l : List Char) : pctDecode (pctEncode l) = l := by
  induction l with
  | nil => simp [pctEncode, pctDecode]
  | cons c rest ih =>
    by_cases hp : c = '%'
    · subst hp
      simp [pctEncode, pctDecode, ih]
    · by_cases hs : c = ' '
      · subst hs
        simp [pctEncode, pctDecode, ih]
      · rw [pctEncode, if_neg hp, if_neg hs, pctDecode.eq_def]
        simp [hp, ih]

/- Separator-based splitting used by the link decoders. -/

/-- Split at the first occurrence of `sep`. -/
def splitFirst (sep : Char) : List Char → Option (List Char × List Char)
  | [] => none
  | c :: rest =>
    if c = sep then some ([], rest)
    else
      match splitFirst sep rest with
      | none => none
      | some (a, b) => some (c :: a, b)

/-- Split at the last occurrence of `sep`. -/
def splitLast (sep : Char) : List Char → Option (List Char × List Char)
  | [] => none
  | c :: rest =>
    match splitLast sep rest with
    | some (a, b) => some (c :: a, b)
    | none => if c = sep then some ([], rest) else none

theorem splitFirst_exact (sep : Char) (a b : List Char) (ha : sep ∉ a) :
    splitFirst sep (a ++ sep :: b) = some (a, b) := by
  induction a with
  | nil => simp [splitFirst]
  | cons c rest ih =>
    have hc : c ≠ sep := by
      intro h
      exact ha (by simp [h])
    have hrest : sep ∉ rest := fun h => ha (by simp [h])
    simp [splitFirst, hc, ih hrest]

theorem splitLast_of_not_mem (sep : Char) (l : List Char) (h : sep ∉ l) :
    splitLast sep l = none := by
  induction l with
  | nil => rfl
  | cons c rest ih =>
    have hc : c ≠ sep := by
      intro he
      exact h (by simp [he])
    have hrest : sep ∉ rest := fun he => h (by simp [he])
    simp [splitLast, ih hrest, hc]

theorem splitLast_exact (sep : Char) (a b : List Char) (hb : sep ∉ b) :
    splitLast sep (a ++ sep :: b) = some (a, b) := by
  induction a with
  | nil =>
    simp [splitLast, splitLast_of_not_mem sep b hb]
  | cons c rest ih =>
    simp [splitLast, ih]

/- Standard base64 over byte lists, used by the `bdpan` link format. -/

/-- The base64 alphabet: the 26 uppercase letters, the 26 lowercase
letters, the 10 digits, then `+` and `/`. -/
def b64Chars : List Char :=
  (List.range 26).map (fun d => Char.ofNat (65 + d)) ++
    (List.range 26).map (fun d => Char.ofNat (97 + d)) ++
    (List.range 10).map (fun d => Char.ofNat (48 + d)) ++
    [Char.ofNat 43, Char.ofNat 47]

/-- Character of a sextet. -/
def b64Chr (n : Nat) : Char := b64Chars.getD n 'A'

/-- Index of a character in the base64 alphabet. -/
def idxOfChar (c : Char) : List Char → Nat
  | [] => 0
  | d :: rest => if d = c then 0 else idxOfChar c rest + 1

/-- Sextet of a character. -/
def b64Val (c : Char) : Nat := idxOfChar c b64Chars

/-- Base64 encoding: three bytes become four characters; a short final
group is padded with `=`. -/
def b64Encode : List Nat → List Char
  | [] => []
  | [a] => [b64Chr (a / 4), b64Chr (a % 4 * 16), '=', '=']
  | [a, b] => [b64Chr (a / 4), b64Chr (a % 4 * 16 + b / 16), b64Chr (b % 16 * 4), '=']
  | a :: b :: c :: rest =>
    b64Chr (a / 4) :: b64Chr (a % 4 * 16 + b / 16) :: b64Chr (b % 16 * 4 + c / 64)
      :: b64Chr (c % 64) :: b64Encode rest

/-- Base64 decoding: four characters become up to three bytes depending on
the padding of the final group. -/
def b64Decode : List Char → List Nat
  | c1 :: c2 :: c3 :: c4 :: rest =>
    if rest = [] then
      if c3 = '=' then [b64Val c1 * 4 + b64Val c2 / 16]
      else if c4 = '=' then
        [b64Val c1 * 4 + b64Val c2 / 16, b64Val c2 % 16 * 16 + b64Val c3 / 4]
      else
        [b64Val c1 * 4 + b64Val c2 / 16, b64Val c2 % 16 * 16 + b64Val c3 / 4,
          b64Val c3 % 4 * 64 + b64Val c4]
    else
      (b64Val c1 * 4 + b64Val c2 / 16) :: (b64Val c2 % 16 * 16 + b64Val c3 / 4)
        :: (b64Val c3 % 4 * 64 + b64Val c4) :: b64Decode rest
  | _ => []

theorem b64Val_b64Chr : ∀ n < 64, b64Val (b64Chr n) = n := by decide

theorem b64Chr_ne_pad : ∀ n < 64, b64Chr n ≠ '=' := by decide

theorem b64Encode_ne_nil (l : List Nat) (h : l ≠ []) : b64Encode l ≠ [] := by
  match l with
  | [] => exact absurd rfl h
  | [a] => simp [b64Encode]
  | [a, b] => simp [b64Encode]
  | a :: b :: c :: rest => simp [b64Encode]

theorem b64Decode_b64Encode (l : List Nat) (h : ∀ x ∈ l, x < 256) :
    b64Decode (b64Encode l) = l := by
  induction l using b64Encode.induct with
  | case1 => simp [b64Encode, b64Decode]
  | case2 a =>
    have ha : a < 256 := h a (by simp)
    have h1 : a / 4 < 64 := by omega
    have h2 : a % 4 * 16 < 64 := by omega
    simp only [b64Encode, b64Decode, if_true]
    rw [b64Val_b64Chr _ h1, b64Val_b64Chr _ h2]
    simp only [List.cons.injEq, and_true]
    omega
  | case3 a b =>
    have ha : a < 256 := h a (by simp)
    have hb : b < 256 := h b (by simp)
    have h1 : a / 4 < 64 := by omega
    have h2 : a % 4 * 16 + b / 16 < 64 := by omega
    have h3 : b % 16 * 4 < 64 := by omega
    simp only [b64Encode, b64Decode, if_true]
    rw [if_neg (b64Chr_ne_pad _ h3)]
    rw [b64Val_b64Chr _ h1, b64Val_b64Chr _ h2, b64Val_b64Chr _ h3]
    simp only [List.cons.injEq, and_true]
    omega
  | case4 a b c rest ih =>
    have ha : a < 256 := h a (by simp)
    have hb : b < 256 := h b (by simp)
    have hc : c < 256 := h c (by simp)
    have hrest : ∀ x ∈ rest, x < 256 := fun x hx => h x (by simp [hx])
    have h1 : a / 4 < 64 := by omega
    have h2 : a % 4 * 16 + b / 16 < 64 := by omega
    have h3 : b % 16 * 4 + c / 64 < 64 := by omega
    have h4 : c % 64 < 64 := by omega
    by_cases hr : rest = []
    · subst hr
      simp only [b64Encode, b64Decode, if_true]
      rw [if_neg (b64Chr_ne_pad _ h3), if_neg (b64Chr_ne_pad _ h4)]
      rw [b64Val_b64Chr _ h1, b64Val_b64Chr _ h2, b64Val_b64Chr _ h3,
        b64Val_b64Chr _ h4]
      simp only [List.cons.injEq, and_true]
      omega
    · have henc : b64Encode rest ≠ [] := b64Encode_ne_nil rest hr
      show b64Decode (b64Chr (a / 4) :: b64Chr (a % 4 * 16 + b / 16)
          :: b64Chr (b % 16 * 4 + c / 64) :: b64Chr (c % 64) :: b64Encode rest)
        = a :: b :: c :: rest
      rw [b64Decode, if_neg henc]
      rw [b64Val_b64Chr _ h1, b64Val_b64Chr _ h2, b64Val_b64Chr _ h3,
        b64Val_b64Chr _ h4, ih hrest]
      simp only [List.cons.injEq, and_true]
      omega

/-- Strip a fixed leading tag such as `cs3l://` or `bdpan://`. -/
def dropTag (tag : List Char) (l : List Char) : Option (List Char) :=
  if l.take tag.length = tag then some (l.drop tag.length) else none

theorem dropTag_exact (tag rest : List Char) :
    dropTag tag (tag ++ rest) = some rest := by
  simp [dropTag, List.take_left, List.drop_left]

/- The fingerprint data model and the three link protocols. -/

/-- Modelled from the spec: a file's content fingerprint: content hash and
leading-slice hash (hex digest strings), optional crc32, length, filename
(the fingerprint codec module is not part of the provided sources). -/
structure FileFingerprint where
  content_md5 : List Char
  slice_md5 : List Char
  crc32 : Option Nat
  content_length : Nat
  filename : List Char
deriving DecidableEq, Repr

/-- The sixteen lowercase hex digit characters: the ten digits followed by
the letters with code points 97 to 102. -/
def hexChars : List Char :=
  decChars ++ (List.range 6).map (fun d => Char.ofNat (97 + d))

/-- A hex digest string. -/
def HexStr (l : List Char) : Prop := ∀ c ∈ l, c ∈ hexChars

instance (l : List Char) : Decidable (HexStr l) := by
  unfold HexStr; infer_instance

/-- The `cs3l://` scheme tag. -/
def cs3lTag : List Char := ['c', 's', '3', 'l', ':', '/', '/']

/-- The `bdpan://` scheme tag. -/
def bdpanTag : List Char := ['b', 'd', 'p', 'a', 'n', ':', '/', '/']

/-- Modelled from the spec:
`cs3l://<content_md5>#<slice_md5>#<content_crc32>#<content_length>#<filename>`
with the filename percent-encoded. -/
def encodeCs3l (f : FileFingerprint) : List Char :=
  cs3lTag ++ (f.content_md5 ++ ('#' :: (f.slice_md5 ++ ('#' ::
    (natToChars (f.crc32.getD 0) ++ ('#' :: (natToChars f.content_length ++
      ('#' :: pctEncode f.filename))))))))

/-- Decoder for the `cs3l` link format. -/
def decodeCs3l (s : List Char) : Option FileFingerprint :=
  match dropTag cs3lTag s with
  | none => none
  | some rest =>
    match splitFirst '#' rest with
    | none => none
    | some (md5, r1) =>
      match splitFirst '#' r1 with
      | none => none
      | some (slice, r2) =>
        match splitFirst '#' r2 with
        | none => none
        | some (crcS, r3) =>
          match splitFirst '#' r3 with
          | none => none
          | some (lenS, fnS) =>
            some ⟨md5, slice, some (charsToNat crcS), charsToNat lenS,
              pctDecode fnS⟩

/-- Modelled from the spec:
`<content_md5>#<slice_md5>#<content_length>#<filename>`: the `short` form,
identical fields minus crc32. -/
def encodeShort (f : FileFingerprint) : List Char :=
  f.content_md5 ++ ('#' :: (f.slice_md5 ++ ('#' ::
    (natToChars f.content_length ++ ('#' :: pctEncode f.filename)))))

/-- Decoder for the `short` link format; crc32 is absent. -/
def decodeShort (s : List Char) : Option FileFingerprint :=
  match splitFirst '#' s with
  | none => none
  | some (md5, r1) =>
    match splitFirst '#' r1 with
    | none => none
    | some (slice, r2) =>
      match splitFirst '#' r2 with
      | none => none
      | some (lenS, fnS) =>
        some ⟨md5, slice, none, charsToNat lenS, pctDecode fnS⟩

/-- The plain-text payload of a `bdpan` link:
`<filename>|<content_length>|<content_md5>|<slice_md5>`. -/
def bdpanPayload (f : FileFingerprint) : List Char :=
  f.filename ++ ('|' :: (natToChars f.content_length ++ ('|' ::
    (f.content_md5 ++ ('|' :: f.slice_md5)))))

/-- Modelled from the spec: `bdpan://` followed by the base64 of the
payload. -/
def encodeBdpan (f : FileFingerprint) : List Char :=
  bdpanTag ++ b64Encode ((bdpanPayload f).map Char.toNat)

/-- Decoder for the `bdpan` link format: strip the tag, base64-decode, and
split the payload from the right (the filename comes first and may itself
contain `|`); crc32 is absent. -/
def decodeBdpan (s : List Char) : Option FileFingerprint :=
  match dropTag bdpanTag s with
  | none => none
  | some b =>
    match splitLast '|' ((b64Decode b).map Char.ofNat) with
    | none => none
    | some (r1, slice) =>
      match splitLast '|' r1 with
      | none => none
      | some (r2, md5) =>
        match splitLast '|' r2 with
        | none => none
        | some (fn, lenS) => some ⟨md5, slice, none, charsToNat lenS, fn⟩

theorem hex_no_hash (l : List Char) (hl : HexStr l) : '#' ∉ l :=
  fun h => absurd (hl '#' h) (by decide)

theorem hex_no_pipe (l : List Char) (hl : HexStr l) : '|' ∉ l :=
  fun h => absurd (hl '|' h) (by decide)

theorem natToChars_no_hash (n : Nat) : '#' ∉ natToChars n :=
  fun h => absurd (natToChars_mem n '#' h) (by decide)

theorem natToChars_no_pipe (n : Nat) : '|' ∉ natToChars n :=
  fun h => absurd (natToChars_mem n '|' h) (by decide)

theorem hex_latin1 (l : List Char) (hl : HexStr l) : ∀ c ∈ l, c.toNat < 256 := by
  intro c hc
  have hall : ∀ c ∈ hexChars, c.toNat < 256 := by decide
  exact hall c (hl c hc)

theorem natToChars_latin1 (n : Nat) : ∀ c ∈ natToChars n, c.toNat < 256 := by
  intro c hc
  have hall : ∀ c ∈ decChars, c.toNat < 256 := by decide
  exact hall c (natToChars_mem n c hc)

/-- Claim C5: for every fingerprint and each protocol, decoding the
encoding reproduces the fields carried by that protocol: `cs3l` carries all
five fields; `short` and `bdpan` carry everything except crc32. -/
theorem fingerprint_roundtrip (f : FileFingerprint)
    (hmd5 : HexStr f.content_md5) (hslice : HexStr f.slice_md5)
    (hfn : ∀ c ∈ f.filename, c.toNat < 256)
    (v : Nat) (hcrc : f.crc32 = some v) :
    decodeCs3l (encodeCs3l f) = some f ∧
      decodeShort (encodeShort f) = some { f with crc32 := none } ∧
      decodeBdpan (encodeBdpan f) = some { f with crc32 := none } := by
  obtain ⟨md5, slice, crc, len, fn⟩ := f
  simp only at hmd5 hslice hfn
  simp only [Option.some.injEq] at hcrc
  have s1 : ∀ b, splitFirst '#' (md5 ++ '#' :: b) = some (md5, b) :=
    fun b => splitFirst_exact _ _ _ (hex_no_hash _ hmd5)
  have s2 : ∀ b, splitFirst '#' (slice ++ '#' :: b) = some (slice, b) :=
    fun b => splitFirst_exact _ _ _ (hex_no_hash _ hslice)
  have s3 : ∀ n b, splitFirst '#' (natToChars n ++ '#' :: b)
      = some (natToChars n, b) :=
    fun n b => splitFirst_exact _ _ _ (natToChars_no_hash n)
  refine ⟨?_, ?_, ?_⟩
  · simp only [decodeCs3l.eq_def, encodeCs3l, dropTag_exact, s1, s2, s3,
      charsToNat_natToChars, pctDecode_pctEncode]
    simp [hcrc]
  · simp only [decodeShort.eq_def, encodeShort, s1, s2, s3,
      charsToNat_natToChars, pctDecode_pctEncode]
  · have hbytes : ∀ x ∈ (bdpanPayload ⟨md5, slice, crc, len, fn⟩).map Char.toNat,
        x < 256 := by
      intro x hx
      rcases List.mem_map.mp hx with ⟨c, hc, rfl⟩
      simp only [bdpanPayload, List.mem_append, List.mem_cons] at hc
      rcases hc with hc | rfl | hc | rfl | hc | rfl | hc
      · exact hfn c hc
      · decide
      · exact natToChars_latin1 _ c hc
      · decide
      · exact hex_latin1 _ hmd5 c hc
      · decide
      · exact hex_latin1 _ hslice c hc
    have hdec : (b64Decode (b64Encode ((bdpanPayload
        ⟨md5, slice, crc, len, fn⟩).map Char.toNat))).map Char.ofNat
        = bdpanPayload ⟨md5, slice, crc, len, fn⟩ := by
      rw [b64Decode_b64Encode _ hbytes, List.map_map]
      simp [Function.comp_def]
    have hshape : bdpanPayload ⟨md5, slice, crc, len, fn⟩
        = ((fn ++ ('|' :: natToChars len)) ++ ('|' :: md5)) ++ ('|' :: slice) := by
      simp [bdpanPayload, List.append_assoc]
    have t1 : splitLast '|' (((fn ++ ('|' :: natToChars len)) ++ ('|' :: md5))
        ++ ('|' :: slice))
        = some ((fn ++ ('|' :: natToChars len)) ++ ('|' :: md5), slice) :=
      splitLast_exact _ _ _ (hex_no_pipe _ hslice)
    have t2 : splitLast '|' ((fn ++ ('|' :: natToChars len)) ++ ('|' :: md5))
        = some (fn ++ ('|' :: natToChars len), md5) :=
      splitLast_exact _ _ _ (hex_no_pipe _ hmd5)
    have t3 : splitLast '|' (fn ++ ('|' :: natToChars len))
        = some (fn, natToChars len) :=
      splitLast_exact _ _ _ (natToChars_no_pipe len)
    have hdec2 : (b64Decode (b64Encode (((((fn ++ ('|' :: natToChars len)) ++
        ('|' :: md5)) ++ ('|' :: slice))).map Char.toNat))).map Char.ofNat
        = ((fn ++ ('|' :: natToChars len)) ++ ('|' :: md5)) ++ ('|' :: slice) := by
      rw [← hshape]
      exact hdec
    simp only [decodeBdpan.eq_def, encodeBdpan, dropTag_exact, hshape, hdec2,
      t1, t2, t3, charsToNat_natToChars]

/-- Witness for C5: a concrete fingerprint with a space in the filename
round-trips through all three protocols. -/
theorem fingerprint_roundtrip_witness :
    HexStr ['a', 'b'] ∧ HexStr ['0', '1'] ∧
      (∀ c ∈ ['f', ' ', '1'], c.toNat < 256) ∧
      decodeCs3l (encodeCs3l ⟨['a', 'b'], ['0', '1'], some 5, 1234,
          ['f', ' ', '1']⟩)
        = some ⟨['a', 'b'], ['0', '1'], some 5, 1234, ['f', ' ', '1']⟩ :=
  ⟨by decide, by decide, by decide,
    (fingerprint_roundtrip ⟨['a', 'b'], ['0', '1'], some 5, 1234,
      ['f', ' ', '1']⟩ (by decide) (by decide) (by decide) 5 rfl).1⟩

end FingerprintCodec
